import Mathlib

/-!
Verification of the chunking core of `src/text_splitter.py`
(`FinancialTextSplitter`).  Python strings are modelled as `List Char`
(ASCII scope: the repository's inputs and all pattern constants are ASCII,
so Python's Unicode-aware `lower`/`isupper`/`\s`/`\d` coincide with the
ASCII versions modelled here).  Python's `len` is `List.length`,
`str.strip()` is `strip`, `str.split()` is `pywords`, and each regular
expression occurring in the source is modelled by a dedicated matcher
specialised to that (constant) pattern, with Python's leftmost /
first-alternative / greedy-vs-lazy backtracking semantics.
-/

namespace RagFin

/-- Python strings. -/
abbrev Str := List Char

/-- Coerce a Lean string literal to the model type. -/
def S (s : String) : Str := s.data

/-- Python whitespace (`str.strip`, `str.split`, regex `\s`), ASCII scope. -/
def pyWs (c : Char) : Bool :=
  c == ' ' || c == '\t' || c == '\n' || c == '\r' || c == '\x0b' || c == '\x0c'

/-- Python `str.lower` on one character (ASCII scope). -/
def lowerCh (c : Char) : Char :=
  if 'A' ≤ c ∧ c ≤ 'Z' then Char.ofNat (c.toNat + 32) else c

/-- Python `str.isupper` on one character (ASCII scope). -/
def isUpperCh (c : Char) : Bool := decide ('A' ≤ c ∧ c ≤ 'Z')

/-- Regex `\d` (ASCII scope). -/
def isDigitCh (c : Char) : Bool := decide ('0' ≤ c ∧ c ≤ '9')

/-- Regex `[A-Za-z]` under `re.IGNORECASE` (ASCII scope). -/
def isAlphaCh (c : Char) : Bool :=
  decide ('A' ≤ c ∧ c ≤ 'Z') || decide ('a' ≤ c ∧ c ≤ 'z')

/-- Regex class `[IVXLC]` under `re.IGNORECASE`. -/
def isRomanCh (c : Char) : Bool :=
  let l := lowerCh c
  l == 'I'.toLower || l == 'v' || l == 'x' || l == 'l' || l == 'c'

/-- `str.strip()` from the left. -/
def stripStart (l : Str) : Str := l.dropWhile pyWs

/-- `str.strip()` from the right. -/
def stripEnd (l : Str) : Str := (l.reverse.dropWhile pyWs).reverse

/-- Python `str.strip()` (both ends). -/
def strip (l : Str) : Str := stripEnd (stripStart l)

/-- Does `s` start with `p`?  (Used to model Python's `in` and `re` scans.) -/
def begins : Str → Str → Bool
  | [], _ => true
  | _ :: _, [] => false
  | p :: ps, c :: cs => p == c && begins ps cs

/-- Python's substring test `pat in s`. -/
def hasSub : Str → Str → Bool
  | [], pat => pat.isEmpty
  | c :: rest, pat => begins pat (c :: rest) || hasSub rest pat

/-- Does `s` end with `p`? -/
def endsWithB (p s : Str) : Bool := begins p.reverse s.reverse

/-- Python `str.split()` (split on whitespace runs, no empty words):
helper carrying the current word reversed. -/
def pywordsAux : Str → Str → List Str
  | [], acc => if acc.isEmpty then [] else [acc.reverse]
  | c :: rest, acc =>
    if pyWs c then
      if acc.isEmpty then pywordsAux rest [] else acc.reverse :: pywordsAux rest []
    else pywordsAux rest (c :: acc)

/-- Python `str.split()`. -/
def pywords (l : Str) : List Str := pywordsAux l []

/-- Concatenation of a list of strings. -/
def cat : List Str → Str
  | [] => []
  | s :: rest => s ++ cat rest

/-- Words joined by single spaces (used to state what the overlap text is). -/
def joinWords : List Str → Str
  | [] => []
  | [w] => w
  | w :: ws => w ++ ' ' :: joinWords ws

/-- Words each followed by one space (the shape `ovLoop` accumulates). -/
def joinTrail (ws : List Str) : Str := cat (ws.map fun w => w ++ [' '])

/-- `word.rstrip('.')` from `_split_sentences`. -/
def rstripDots (w : Str) : Str := (w.reverse.dropWhile (· == '.')).reverse

/-- Regex `[.!?]` (the `sentence_endings` constant). -/
def isEnd (c : Char) : Bool := c == '.' || c == '!' || c == '?'

/-- `re.split('([.!?])', text)`: pieces interleaved with the captured
one-character separators; first and last elements are (possibly empty)
pieces.  `acc` is the current piece, reversed. -/
def splitPunctAux : Str → Str → List Str
  | [], acc => [acc.reverse]
  | c :: rest, acc =>
    if isEnd c then acc.reverse :: [c] :: splitPunctAux rest []
    else splitPunctAux rest (c :: acc)

/-- `re.split('([.!?])', text)`. -/
def reSplitPunct (t : Str) : List Str := splitPunctAux t []

/-- The `abbreviations` constant of `_split_sentences`. -/
def abbreviations : List Str :=
  [S "Rs", S "Dr", S "Mr", S "Mrs", S "Ms", S "Ltd", S "Pvt", S "Inc",
   S "Corp", S "vs", S "etc", S "viz", S "e.g", S "i.e"]

/-- The reconstruction loop of `_split_sentences`.  Processes the parts of
`re.split('([.!?])', text)` with one-part lookahead (`sentences[i+1]`),
accumulating `current` and the emitted sentences (`result`). -/
def ssLoop : List Str → Str → List Str → List Str
  | [], current, result =>
    if current.isEmpty then result else result ++ [strip current]
  | part :: rest, current, result =>
    let current' := current ++ part
    -- `re.match(sentence_endings, part)`
    if (match part with | c :: _ => isEnd c | [] => false) then
      match (pywords current').getLast? with
      | none => ssLoop rest current' result          -- `if words` fails
      | some w =>
        if abbreviations.contains (rstripDots w) then ssLoop rest current' result
        else
          -- `if i + 1 < len(sentences) and sentences[i + 1].strip():`
          match rest.head? with
          | some nxt =>
            match (strip nxt).head? with
            | some c0 =>
              if isUpperCh c0 then ssLoop rest [] (result ++ [strip current'])
              else ssLoop rest current' result
            | none => ssLoop rest [] (result ++ [strip current'])  -- outer else
          | none => ssLoop rest [] (result ++ [strip current'])    -- outer else
    else ssLoop rest current' result

/-- `FinancialTextSplitter._split_sentences`. -/
def split_sentences (t : Str) : List Str := ssLoop (reSplitPunct t) [] []

/-- The word-collecting loop of `_get_overlap_text` (iterates over
`reversed(words)`, breaking at the first word that does not fit). -/
def ovLoop (ov : Nat) : List Str → Str → Nat → Str
  | [], acc, _ => acc
  | w :: ws, acc, cur =>
    if cur + w.length + 1 ≤ ov then ovLoop ov ws (w ++ ' ' :: acc) (cur + w.length + 1)
    else acc

/-- `FinancialTextSplitter._get_overlap_text`. -/
def get_overlap_text (ov : Nat) (t : Str) : Str :=
  if t.length ≤ ov then t
  else strip (ovLoop ov (pywords t).reverse [] 0)

/-- The sentence-packing loop of `_split_by_size`; `clen` is the source's
`current_length` accumulator. -/
def sbsLoop (cs ov : Nat) : List Str → List Str → Str → Nat → List Str
  | [], chunks, current, _ =>
    if current.isEmpty then chunks else chunks ++ [strip current]
  | s :: rest, chunks, current, clen =>
    if clen + s.length ≤ cs then
      sbsLoop cs ov rest chunks (current ++ s ++ [' ']) (clen + s.length + 1)
    else
      let chunks' := if current.isEmpty then chunks else chunks ++ [strip current]
      if 0 < ov ∧ ¬ chunks'.isEmpty then
        let cur' := get_overlap_text ov current ++ s ++ [' ']
        sbsLoop cs ov rest chunks' cur' cur'.length
      else
        sbsLoop cs ov rest chunks' (s ++ [' ']) (s.length + 1)

/-- `FinancialTextSplitter._split_by_size` (with `length_function = len`,
the default used throughout the repository). -/
def split_by_size (cs ov : Nat) (t : Str) : List Str :=
  if t.length ≤ cs then [strip t]
  else sbsLoop cs ov (split_sentences t) [] [] 0

/-- `FinancialTextSplitter._split_generic`. -/
def split_generic (cs ov : Nat) (t : Str) : List Str := split_by_size cs ov t

/-! ### The circular path: `re.split(r'\n\s*\d+\.\s+', text)`

The pattern's character classes are pairwise disjoint with their
follow-sets, so Python's greedy backtracking reduces to maximal-run
scanning. -/

/-- Length of a match of `\n\s*\d+\.\s+` at the head of `s`, if any. -/
def circMatchLen (s : Str) : Option Nat :=
  match s with
  | '\n' :: r =>
    let w := r.takeWhile pyWs
    let r1 := r.dropWhile pyWs
    let d := r1.takeWhile isDigitCh
    if d.isEmpty then none
    else
      match r1.drop d.length with
      | '.' :: r2 =>
        let sp := r2.takeWhile pyWs
        if sp.isEmpty then none
        else some (1 + w.length + d.length + 1 + sp.length)
      | _ => none
  | _ => none

/-- `re.split` scanner for the (uncaptured) circular pattern: leftmost,
non-overlapping matches are removed; `acc` is the current piece reversed.
`fuel` bounds the recursion; every step consumes at least one character,
so `t.length + 1` fuel never runs out. -/
def reSplitNumAux : Nat → Str → Str → List Str
  | 0, s, acc => [acc.reverse ++ s]
  | fuel + 1, s, acc =>
    match circMatchLen s with
    | some L => acc.reverse :: reSplitNumAux fuel (s.drop L) []
    | none =>
      match s with
      | [] => [acc.reverse]
      | c :: rest => reSplitNumAux fuel rest (c :: acc)

/-- `re.split(r'\n\s*\d+\.\s+', text)`. -/
def reSplitNum (t : Str) : List Str := reSplitNumAux (t.length + 1) t []

/-- `FinancialTextSplitter._split_circular`. -/
def split_circular (cs ov : Nat) (t : Str) : List Str :=
  (reSplitNum t).flatMap fun point =>
    if point.length ≤ cs then [strip point] else split_by_size cs ov point

/-! ### The structural path: the `section_markers` alternation

Each alternative is `LITERAL \s+ CLASS+` (or the numbered-heading form);
greedy runs are forced because each class is disjoint from what follows,
and `re`'s alternation takes the first alternative that matches. -/

/-- Consume `lit` case-insensitively from the head of `s`. -/
def dropLit : Str → Str → Option Str
  | [], s => some s
  | _ :: _, [] => none
  | p :: ps, c :: cs => if lowerCh c == lowerCh p then dropLit ps cs else none

/-- Match `LIT\s+CLASS+` at the head of `s`; returns the match length. -/
def litWsClass (lit : Str) (cls : Char → Bool) (s : Str) : Option Nat :=
  match dropLit lit s with
  | none => none
  | some r1 =>
    let w := r1.takeWhile pyWs
    if w.isEmpty then none
    else
      let r2 := r1.dropWhile pyWs
      let k := r2.takeWhile cls
      if k.isEmpty then none else some (lit.length + w.length + k.length)

/-- Match `LIT\s+CLASS` (a single class character) at the head of `s`. -/
def litWsOne (lit : Str) (cls : Char → Bool) (s : Str) : Option Nat :=
  match dropLit lit s with
  | none => none
  | some r1 =>
    let w := r1.takeWhile pyWs
    if w.isEmpty then none
    else
      match r1.dropWhile pyWs with
      | c :: _ => if cls c then some (lit.length + w.length + 1) else none
      | [] => none

/-- Match `\d+\.\s+[A-Z][A-Za-z\s]+:` at the head of `s`
(the "numbered sections" marker), `re.IGNORECASE`. -/
def numberedHeading (s : Str) : Option Nat :=
  let d := s.takeWhile isDigitCh
  if d.isEmpty then none
  else
    match s.drop d.length with
    | '.' :: r2 =>
      let w := r2.takeWhile pyWs
      if w.isEmpty then none
      else
        match r2.dropWhile pyWs with
        | c :: r4 =>
          if isAlphaCh c then
            let run := r4.takeWhile fun x => isAlphaCh x || pyWs x
            if run.isEmpty then none
            else
              match r4.drop run.length with
              | ':' :: _ => some (d.length + 1 + w.length + 1 + run.length + 1)
              | _ => none
          else none
        | [] => none
    | _ => none

/-- The `section_pattern` alternation (first alternative wins), at the head
of `s`, under `re.IGNORECASE`. -/
def sectionMatchLen (s : Str) : Option Nat :=
  litWsClass (S "CHAPTER") isRomanCh s <|>
  litWsClass (S "PART") isRomanCh s <|>
  litWsClass (S "Section") isDigitCh s <|>
  litWsClass (S "Regulation") isDigitCh s <|>
  litWsClass (S "Article") isDigitCh s <|>
  litWsClass (S "Schedule") isRomanCh s <|>
  litWsOne (S "Annexure") isAlphaCh s <|>
  numberedHeading s

/-- `re.split(f"({section_pattern})", text, flags=re.IGNORECASE)`:
captured separators are kept in the output list. -/
def sectionSplitAux : Nat → Str → Str → List Str
  | 0, s, acc => [acc.reverse ++ s]
  | fuel + 1, s, acc =>
    match sectionMatchLen s with
    | some L => acc.reverse :: s.take L :: sectionSplitAux fuel (s.drop L) []
    | none =>
      match s with
      | [] => [acc.reverse]
      | c :: rest => sectionSplitAux fuel rest (c :: acc)

/-- `re.split` over the section-marker pattern with its capture group. -/
def sectionSplit (t : Str) : List Str := sectionSplitAux (t.length + 1) t []

/-- The accumulation loop of `_split_legal_document`.  The source's
`len(current_chunk) > self.chunk_size * 1.5` (a float comparison with
integer operands) is modelled exactly as `2 * len > 3 * cs`. -/
def legalLoop (cs ov : Nat) : List Str → List Str → Str → List Str
  | [], chunks, current =>
    if current.isEmpty then chunks else chunks ++ split_by_size cs ov current
  | part :: rest, chunks, current =>
    if (sectionMatchLen part).isSome then
      let chunks' :=
        if ¬ current.isEmpty ∧ current.length > 100 then chunks ++ split_by_size cs ov current
        else chunks
      legalLoop cs ov rest chunks' part
    else
      let cur' := current ++ part
      if 2 * cur'.length > 3 * cs then legalLoop cs ov rest (chunks ++ split_by_size cs ov cur') []
      else legalLoop cs ov rest chunks cur'

/-- `FinancialTextSplitter._split_legal_document`. -/
def split_legal_document (cs ov : Nat) (t : Str) : List Str :=
  legalLoop cs ov (sectionSplit t) [] []

/-! ### The FAQ path

`qa_pattern = (?:Q\d*[:.]?\s*|Question[:.]?\s*)(.*?)(?:A\d*[:.]?\s*|Answer[:.]?\s*)
(.*?)(?=(?:Q\d*[:.]?\s*|Question[:.]?\s*)|$)` with `re.DOTALL | re.IGNORECASE`.
Sub-matchers return the possible remainders in backtracking priority
order; the first overall success is Python's match. -/

/-- Regex class `[:.]`. -/
def isColonDot (c : Char) : Bool := c == ':' || c == '.'

/-- One case-insensitive character: remainders in priority order. -/
def mcharCI (p : Char) (s : Str) : List Str :=
  match s with
  | c :: r => if lowerCh c == lowerCh p then [r] else []
  | [] => []

/-- A case-insensitive literal. -/
def mlitCI (lit : Str) (s : Str) : List Str :=
  match dropLit lit s with
  | some r => [r]
  | none => []

/-- Greedy `CLASS*`: longest consumption first. -/
def mclassStar (p : Char → Bool) (s : Str) : List Str :=
  let run := (s.takeWhile p).length
  (List.range (run + 1)).map fun i => s.drop (run - i)

/-- Greedy `CLASS?`: consumption first, then the empty alternative. -/
def moptClass (p : Char → Bool) (s : Str) : List Str :=
  (match s with
   | c :: r => if p c then [r] else []
   | [] => []) ++ [s]

/-- Sequencing of matchers (earlier choice points are outermost). -/
def mseq (a b : Str → List Str) (s : Str) : List Str := (a s).flatMap b

/-- The question marker `Q\d*[:.]?\s*|Question[:.]?\s*`. -/
def qMark (s : Str) : List Str :=
  mseq (mcharCI 'q')
    (mseq (mclassStar isDigitCh) (mseq (moptClass isColonDot) (mclassStar pyWs))) s ++
  mseq (mlitCI (S "Question")) (mseq (moptClass isColonDot) (mclassStar pyWs)) s

/-- The answer marker `A\d*[:.]?\s*|Answer[:.]?\s*`. -/
def aMark (s : Str) : List Str :=
  mseq (mcharCI 'a')
    (mseq (mclassStar isDigitCh) (mseq (moptClass isColonDot) (mclassStar pyWs))) s ++
  mseq (mlitCI (S "Answer")) (mseq (moptClass isColonDot) (mclassStar pyWs)) s

/-- Python's `$` (no `re.MULTILINE`): end of input, or just before a final
newline. -/
def atDollar (s : Str) : Bool := s.isEmpty || s == ['\n']

/-- The lookahead `(?=(?:Q\d*[:.]?\s*|Question[:.]?\s*)|$)`. -/
def lookQ (s : Str) : Bool := !(qMark s).isEmpty || atDollar s

/-- Attempt the full `qa_pattern` at the head of `s`: first success in
backtracking order. Returns (match length, group 1, group 2); the lazy
`(.*?)` groups enumerate lengths from 0 upward (`re.DOTALL`: any char). -/
def faqMatchAt (s : Str) : Option (Nat × Str × Str) :=
  (qMark s).findSome? fun r1 =>
    (List.range (r1.length + 1)).findSome? fun k =>
      let q := r1.take k
      (aMark (r1.drop k)).findSome? fun r3 =>
        (List.range (r3.length + 1)).findSome? fun j =>
          let a := r3.take j
          let r4 := r3.drop j
          if lookQ r4 then some (s.length - r4.length, q, a) else none

/-- `re.finditer` over the `qa_pattern`: leftmost non-overlapping matches;
after a match scanning resumes at its end (an empty match would advance by
one, mirroring `finditer`).  A match always consumes the `Q`, so
`t.length + 1` fuel never runs out. -/
def faqFind : Nat → Str → List (Str × Str × Str)
  | 0, _ => []
  | fuel + 1, s =>
    if s.isEmpty then []
    else
      match faqMatchAt s with
      | some (L, q, a) => (s.take L, q, a) :: faqFind fuel (s.drop (max L 1))
      | none => faqFind fuel (s.drop 1)

/-- Python `answer[:k]` for a possibly negative `k`. -/
def pySliceTo (k : Int) (s : Str) : Str :=
  if k < 0 then s.take ((s.length : Int) + k).toNat else s.take k.toNat

/-- Python `answer[k:]` for a possibly negative `k`. -/
def pySliceFrom (k : Int) (s : Str) : Str :=
  if k < 0 then s.drop ((s.length : Int) + k).toNat else s.drop k.toNat

/-- `FinancialTextSplitter._split_faq`. -/
def split_faq (cs ov : Nat) (t : Str) : List Str :=
  let chunks := (faqFind (t.length + 1) t).flatMap fun m =>
    let qa := strip m.1
    if qa.length ≤ cs then [qa]
    else
      let question := strip m.2.1
      let answer := strip m.2.2
      if answer.length > cs then
        let k : Int := (cs : Int) - (question.length : Int) - 10
        (S "Q: " ++ question ++ S "\nA: " ++ pySliceTo k answer ++ S "...")
          :: split_by_size cs ov (S "...continued: " ++ pySliceFrom k answer)
      else [qa]
  if chunks.isEmpty then split_generic cs ov t else chunks

/-! ### Classification, metadata, and `split_text` -/

/-- `FinancialTextSplitter._detect_document_type`
(`text.lower()[:2000]`, then ordered substring tests). -/
def detect_document_type (t : Str) : String :=
  let tl := (t.map lowerCh).take 2000
  if hasSub tl (S "regulation") && hasSub tl (S "chapter") then "regulation"
  else if hasSub tl (S "circular") && hasSub tl (S "ref") then "circular"
  else if hasSub tl (S "frequently asked questions") || hasSub tl (S "faq") then "faq"
  else if hasSub tl (S "act") && hasSub tl (S "section") then "act"
  else "generic"

/-- `A.*B` fragments after the first one, where each `.*` cannot cross a
newline (`re.DOTALL` is off for `regulation_patterns`): the next literal
must start within the current line. -/
def chainNoNL : List Str → Str → Bool
  | [], _ => true
  | p :: ps, t =>
    let bound := (t.takeWhile (· != '\n')).length
    (List.range (bound + 1)).any fun j =>
      begins p (t.drop j) && chainNoNL ps (t.drop (j + p.length))

/-- `re.search("p₁.*p₂.*…", t) is not None`: the first literal may start
anywhere (the scan itself crosses newlines), later ones on the same line. -/
def searchChain (pats : List Str) (t : Str) : Bool :=
  match pats with
  | [] => true
  | p :: ps =>
    (List.range (t.length + 1)).any fun i =>
      begins p (t.drop i) && chainNoNL ps (t.drop (i + p.length))

/-- `FinancialTextSplitter._identify_regulation_type`: the
`regulation_patterns` dict in insertion order, first match wins. -/
def identify_regulation_type (t : Str) : Option String :=
  let tl := t.map lowerCh
  if searchChain [S "listing", S "obligation", S "disclosure"] tl then some "SEBI_LODR"
  else if searchChain [S "insider", S "trading"] tl
       || searchChain [S "prohibition", S "insider"] tl then some "SEBI_PIT"
  else if searchChain [S "takeover", S "regulation"] tl
       || searchChain [S "substantial", S "acquisition"] tl then some "SEBI_TAKEOVER"
  else if searchChain [S "master", S "direction"] tl
       || searchChain [S "master", S "circular"] tl then some "RBI_MASTER"
  else if searchChain [S "nse", S "circular"] tl
       || searchChain [S "exchange", S "notice"] tl then some "NSE_CIRCULAR"
  else if searchChain [S "income", S "tax"] tl
       || searchChain [S "section", S "80"] tl
       || searchChain [S "capital", S "gain"] tl then some "INCOME_TAX"
  else none

/-- `FinancialTextSplitter._extract_section`: try each `section_markers`
pattern in order with `re.match`; same first-match semantics as the
alternation, returning the matched prefix (`match.group(0)`). -/
def extract_section (t : Str) : Option Str :=
  (sectionMatchLen t).map fun L => t.take L

/-- The `ChunkMetadata` dataclass (the unused `page_number` field omitted;
`section` is named `section_label` because `section` is a Lean keyword). -/
structure ChunkMetadata where
  source : String
  chunk_index : Nat
  total_chunks : Nat
  section_label : Option Str
  regulation_type : Option String
deriving DecidableEq, Repr

/-- The metadata-attaching loop of `split_text` (`enumerate(chunks)`). -/
def tagIdx (total : Nat) (src : String) : Nat → List Str → List (Str × ChunkMetadata)
  | _, [] => []
  | i, c :: rest =>
    (c, { source := src, chunk_index := i + 1, total_chunks := total,
          section_label := extract_section c,
          regulation_type := identify_regulation_type c }) :: tagIdx total src (i + 1) rest

/-- `FinancialTextSplitter.split_text` (caller metadata reduced to its
`source` entry, the only key read). -/
def split_text (cs ov : Nat) (src : String) (t : Str) : List (Str × ChunkMetadata) :=
  if t.isEmpty then []       -- `if not text: return []`
  else
    let dt := detect_document_type t
    let chunks :=
      if dt == "regulation" || dt == "act" then split_legal_document cs ov t
      else if dt == "circular" then split_circular cs ov t
      else if dt == "faq" then split_faq cs ov t
      else split_generic cs ov t
    tagIdx chunks.length src 0 chunks

/-! ### Spec-side classifier (for the refinement claim about §4.1)

`spec_classify` is written from the specification's words, not from the
source: rule order and keyword tests as §4.1 states them, rules 1 and 4
both selecting the structural (regulation-or-act) strategy. -/

/-- The four strategies of §2/§4.1 of the specification. -/
inductive Strategy where
  | structural
  | circularDoc
  | faqDoc
  | genericDoc
deriving DecidableEq, Repr

/-- Modelled from the spec (§4.1): first match wins over the case-folded
first 2000 characters. -/
def spec_classify (t : Str) : Strategy :=
  let p := (t.map lowerCh).take 2000
  if hasSub p (S "regulation") && hasSub p (S "chapter") then .structural
  else if hasSub p (S "circular") && hasSub p (S "ref") then .circularDoc
  else if hasSub p (S "frequently asked questions") || hasSub p (S "faq") then .faqDoc
  else if hasSub p (S "act") && hasSub p (S "section") then .structural
  else .genericDoc

/-- The strategy `split_text` dispatches to for a given detected type
(from the dispatch chain of `split_text`). -/
def routeOf (dt : String) : Strategy :=
  if dt == "regulation" || dt == "act" then .structural
  else if dt == "circular" then .circularDoc
  else if dt == "faq" then .faqDoc
  else .genericDoc

/-! ## Helper lemmas: substrings -/

theorem begins_iff {p s : Str} : begins p s = true ↔ ∃ r, s = p ++ r := by
  induction p generalizing s with
  | nil => simp [begins]
  | cons a ps ih =>
    cases s with
    | nil => simp [begins]
    | cons c cs =>
      simp only [begins, Bool.and_eq_true, beq_iff_eq, ih, List.cons_append,
        List.cons.injEq]
      constructor
      · rintro ⟨rfl, r, rfl⟩; exact ⟨r, rfl, rfl⟩
      · rintro ⟨r, rfl, rfl⟩; exact ⟨rfl, r, rfl⟩

theorem hasSub_iff {s pat : Str} : hasSub s pat = true ↔ ∃ u v, s = u ++ pat ++ v := by
  induction s with
  | nil =>
    simp only [hasSub, List.isEmpty_iff]
    constructor
    · rintro rfl; exact ⟨[], [], rfl⟩
    · rintro ⟨u, v, h⟩
      rcases List.append_eq_nil.mp h.symm with ⟨h1, h2⟩
      exact (List.append_eq_nil.mp h1).2
  | cons c rest ih =>
    simp only [hasSub, Bool.or_eq_true, begins_iff, ih]
    constructor
    · rintro (⟨r, hr⟩ | ⟨u, v, rfl⟩)
      · exact ⟨[], r, by simp [hr]⟩
      · exact ⟨c :: u, v, rfl⟩
    · rintro ⟨u, v, h⟩
      cases u with
      | nil => exact Or.inl ⟨v, by simpa using h⟩
      | cons a u' =>
        simp only [List.cons_append, List.cons.injEq] at h
        exact Or.inr ⟨u', v, h.2⟩

theorem hasSub_nil (s : Str) : hasSub s [] = true := by
  rw [hasSub_iff]; exact ⟨[], s, rfl⟩

theorem hasSub_trans {t m s : Str} (h1 : hasSub t m = true) (h2 : hasSub m s = true) :
    hasSub t s = true := by
  rcases hasSub_iff.mp h1 with ⟨u, v, rfl⟩
  rcases hasSub_iff.mp h2 with ⟨a, b, rfl⟩
  exact hasSub_iff.mpr ⟨u ++ a, b ++ v, by simp [List.append_assoc]⟩

theorem hasSub_append_outer {t s : Str} (u v : Str) (h : hasSub t s = true) :
    hasSub (u ++ t ++ v) s = true := by
  rcases hasSub_iff.mp h with ⟨a, b, rfl⟩
  exact hasSub_iff.mpr ⟨u ++ a, b ++ v, by simp [List.append_assoc]⟩

theorem hasSub_self (s : Str) : hasSub s s = true :=
  hasSub_iff.mpr ⟨[], [], by simp⟩

theorem hasSub_mem {s pat : Str} (h : hasSub s pat = true) {c : Char} (hc : c ∈ pat) :
    c ∈ s := by
  rcases hasSub_iff.mp h with ⟨u, v, rfl⟩
  simp [hc]

/-! ## Helper lemmas: `strip` -/

theorem stripStart_cons_ws {c : Char} (h : pyWs c = true) (l : Str) :
    stripStart (c :: l) = stripStart l := by
  simp [stripStart, List.dropWhile_cons, h]

theorem stripStart_cons_not_ws {c : Char} (h : pyWs c = false) (l : Str) :
    stripStart (c :: l) = c :: l := by
  simp [stripStart, List.dropWhile_cons, h]

theorem stripStart_exists (l : Str) : ∃ u, l = u ++ stripStart l := by
  induction l with
  | nil => exact ⟨[], rfl⟩
  | cons c rest ih =>
    cases h : pyWs c with
    | true =>
      rcases ih with ⟨u, hu⟩
      refine ⟨c :: u, ?_⟩
      rw [stripStart_cons_ws h, List.cons_append, ← hu]
    | false => exact ⟨[], by rw [stripStart_cons_not_ws h]; simp⟩

theorem stripEnd_exists (l : Str) : ∃ v, l = stripEnd l ++ v := by
  rcases stripStart_exists l.reverse with ⟨u, hu⟩
  refine ⟨u.reverse, ?_⟩
  have h2 := congrArg List.reverse hu
  simpa [stripEnd, stripStart] using h2

theorem strip_exists (l : Str) : ∃ u v, l = u ++ strip l ++ v := by
  rcases stripStart_exists l with ⟨u, hu⟩
  rcases stripEnd_exists (stripStart l) with ⟨v, hv⟩
  refine ⟨u, v, ?_⟩
  conv_lhs => rw [hu, hv]
  simp [strip, List.append_assoc]

theorem hasSub_strip_self (l : Str) : hasSub l (strip l) = true := by
  rcases strip_exists l with ⟨u, v, h⟩
  exact hasSub_iff.mpr ⟨u, v, h⟩

theorem length_strip_le (l : Str) : (strip l).length ≤ l.length := by
  rcases strip_exists l with ⟨u, v, h⟩
  have h2 := congrArg List.length h
  simp [List.length_append] at h2
  omega

theorem stripStart_append_cases (l m : Str) :
    stripStart (l ++ m) = if stripStart l = [] then stripStart m
                          else stripStart l ++ m := by
  induction l with
  | nil => simp [stripStart]
  | cons c rest ih =>
    cases h : pyWs c with
    | true => rw [List.cons_append, stripStart_cons_ws h, stripStart_cons_ws h]; exact ih
    | false => rw [List.cons_append, stripStart_cons_not_ws h, stripStart_cons_not_ws h]; simp

theorem stripEnd_snoc_ws {c : Char} (h : pyWs c = true) (l : Str) :
    stripEnd (l ++ [c]) = stripEnd l := by
  simp [stripEnd, List.reverse_append, List.dropWhile_cons, h]

theorem strip_snoc_ws {c : Char} (h : pyWs c = true) (l : Str) :
    strip (l ++ [c]) = strip l := by
  unfold strip
  rw [stripStart_append_cases]
  by_cases he : stripStart l = []
  · simp only [he, if_true]
    have h1 : stripStart [c] = [] := by
      rw [show ([c] : Str) = c :: [] from rfl, stripStart_cons_ws h]; rfl
    rw [h1]
  · simp only [he, if_false]
    exact stripEnd_snoc_ws h _

theorem dropWhile_head_false {p : Char → Bool} {c : Char} {r : Str} :
    ∀ l : Str, l.dropWhile p = c :: r → p c = false := by
  intro l
  induction l with
  | nil => intro h; simp [List.dropWhile] at h
  | cons a rest ih =>
    intro h
    rw [List.dropWhile_cons] at h
    by_cases ha : p a = true
    · simp only [ha, if_true] at h; exact ih h
    · simp only [Bool.not_eq_true] at ha
      simp only [ha, Bool.false_eq_true, if_false] at h
      cases h; exact ha

theorem strip_head_not_ws {l : Str} {c : Char} {r : Str} (h : strip l = c :: r) :
    pyWs c = false := by
  rcases stripEnd_exists (stripStart l) with ⟨v, hv⟩
  have hv2 : stripStart l = strip l ++ v := hv
  rw [h] at hv2
  have hv3 : l.dropWhile pyWs = c :: (r ++ v) := by
    simpa [stripStart] using hv2
  exact dropWhile_head_false l hv3

theorem strip_getLast_not_ws {l : Str} {c : Char}
    (h : (strip l).getLast? = some c) : pyWs c = false := by
  have h1 : ((stripStart l).reverse.dropWhile pyWs).reverse.getLast? = some c := h
  rw [List.getLast?_reverse] at h1
  cases hd : (stripStart l).reverse.dropWhile pyWs with
  | nil => rw [hd] at h1; exact absurd h1 (by simp)
  | cons d w =>
    rw [hd] at h1
    have h2 : d = c := by simpa using h1
    subst h2
    exact dropWhile_head_false _ hd

theorem strip_eq_self {l : Str}
    (h1 : ∀ c, l.head? = some c → pyWs c = false)
    (h2 : ∀ c, l.getLast? = some c → pyWs c = false) : strip l = l := by
  cases l with
  | nil => rfl
  | cons a r =>
    have ha : pyWs a = false := h1 a rfl
    have hss : stripStart (a :: r) = a :: r := stripStart_cons_not_ws ha _
    rw [strip, hss]
    cases hrev : (a :: r).reverse with
    | nil => exact absurd (congrArg List.length hrev) (by simp)
    | cons d w =>
      have hd : (a :: r).getLast? = some d := by
        rw [← List.head?_reverse, hrev]; rfl
      have hwd : pyWs d = false := h2 d hd
      rw [stripEnd, hrev, List.dropWhile_cons]
      simp only [hwd, Bool.false_eq_true, if_false]
      rw [← hrev, List.reverse_reverse]

theorem strip_idem (l : Str) : strip (strip l) = strip l :=
  strip_eq_self
    (fun c hc => by
      cases h : strip l with
      | nil => rw [h] at hc; simp at hc
      | cons d r =>
        rw [h] at hc; simp at hc
        rw [← hc]; exact strip_head_not_ws h)
    (fun c hc => strip_getLast_not_ws hc)

theorem hasSub_stripStart {t s : Str} {c : Char}
    (hc : s.head? = some c) (hws : pyWs c = false)
    (h : hasSub t s = true) : hasSub (stripStart t) s = true := by
  rcases hasSub_iff.mp h with ⟨u, v, rfl⟩
  clear h
  induction u with
  | nil =>
    cases s with
    | nil => simp at hc
    | cons a s' =>
      simp only [List.head?] at hc
      cases hc
      rw [List.nil_append, List.cons_append, stripStart_cons_not_ws hws]
      exact hasSub_iff.mpr ⟨[], v, by simp⟩
  | cons a u' ih =>
    rw [List.cons_append, List.cons_append]
    cases hpa : pyWs a with
    | true =>
      rw [stripStart_cons_ws hpa]
      exact ih
    | false =>
      rw [stripStart_cons_not_ws hpa]
      exact hasSub_iff.mpr ⟨a :: u', v, by simp⟩

theorem hasSub_reverse {t s : Str} (h : hasSub t s = true) :
    hasSub t.reverse s.reverse = true := by
  rcases hasSub_iff.mp h with ⟨u, v, rfl⟩
  exact hasSub_iff.mpr ⟨v.reverse, u.reverse, by simp [List.reverse_append, List.append_assoc]⟩

theorem hasSub_strip {t s : Str} (hse : strip s = s) (h : hasSub t s = true) :
    hasSub (strip t) s = true := by
  cases s with
  | nil => exact hasSub_nil _
  | cons c s' =>
    have hcw : pyWs c = false := strip_head_not_ws hse
    cases hgl : (c :: s').getLast? with
    | none => exact absurd hgl (by simp)
    | some d =>
      have hd2 : pyWs d = false :=
        strip_getLast_not_ws (l := c :: s') (by rw [hse]; exact hgl)
      have step1 : hasSub (stripStart t) (c :: s') = true :=
        hasSub_stripStart rfl hcw h
      have step2 := hasSub_reverse step1
      have hdrev : (c :: s').reverse.head? = some d := by
        rw [List.head?_reverse]; exact hgl
      have step3 := hasSub_stripStart hdrev hd2 step2
      have step4 := hasSub_reverse step3
      rw [List.reverse_reverse] at step4
      exact step4

theorem strip_all_ws {l : Str} (h : ∀ c ∈ l, pyWs c = true) : strip l = [] := by
  have h1 : stripStart l = [] := by
    rw [stripStart, List.dropWhile_eq_nil_iff]
    exact fun x hx => h x hx
  rw [strip, h1]; rfl

/-! ## Helper lemmas: the sentence segmenter -/

theorem cat_append (a b : List Str) : cat (a ++ b) = cat a ++ cat b := by
  induction a with
  | nil => rfl
  | cons s rest ih => simp [cat, ih, List.append_assoc]

theorem cat_splitPunctAux (s : Str) : ∀ acc, cat (splitPunctAux s acc) = acc.reverse ++ s := by
  induction s with
  | nil => intro acc; simp [splitPunctAux, cat]
  | cons c rest ih =>
    intro acc
    rw [splitPunctAux]
    by_cases h : isEnd c = true
    · simp only [h, if_true, cat, ih]
      simp
    · simp only [Bool.not_eq_true] at h
      simp only [h, Bool.false_eq_true, if_false, ih]
      simp

theorem cat_reSplitPunct (t : Str) : cat (reSplitPunct t) = t := by
  simpa using cat_splitPunctAux t []

theorem ssLoop_cons_eq (part : Str) (rest : List Str) (cur : Str) (res : List Str) :
    ssLoop (part :: rest) cur res =
      if (match part with | c :: _ => isEnd c | [] => false) then
        match (pywords (cur ++ part)).getLast? with
        | none => ssLoop rest (cur ++ part) res
        | some w =>
          if abbreviations.contains (rstripDots w) then ssLoop rest (cur ++ part) res
          else
            match rest.head? with
            | some nxt =>
              match (strip nxt).head? with
              | some c0 =>
                if isUpperCh c0 then ssLoop rest [] (res ++ [strip (cur ++ part)])
                else ssLoop rest (cur ++ part) res
              | none => ssLoop rest [] (res ++ [strip (cur ++ part)])
            | none => ssLoop rest [] (res ++ [strip (cur ++ part)])
      else ssLoop rest (cur ++ part) res := rfl

theorem ssLoop_stripped :
    ∀ (parts : List Str) (cur : Str) (res : List Str),
      (∀ s ∈ res, strip s = s) → ∀ s ∈ ssLoop parts cur res, strip s = s := by
  intro parts
  induction parts with
  | nil =>
    intro cur res hres s hs
    rw [ssLoop] at hs
    by_cases hc : cur.isEmpty
    · simp only [hc, if_true] at hs; exact hres s hs
    · simp only [hc, if_false] at hs
      rcases List.mem_append.mp hs with h | h
      · exact hres s h
      · rcases List.mem_singleton.mp h with rfl
        exact strip_idem _
  | cons part rest ih =>
    intro cur res hres s hs
    have hres' : ∀ (x : Str), ∀ s ∈ res ++ [strip x], strip s = s := by
      intro x s hs
      rcases List.mem_append.mp hs with h | h
      · exact hres s h
      · rcases List.mem_singleton.mp h with rfl
        exact strip_idem _
    rw [ssLoop_cons_eq] at hs
    split at hs
    · split at hs
      · exact ih _ _ hres s hs
      · split at hs
        · exact ih _ _ hres s hs
        · split at hs
          · split at hs
            · split at hs
              · exact ih _ _ (hres' _) s hs
              · exact ih _ _ hres s hs
            · exact ih _ _ (hres' _) s hs
          · exact ih _ _ (hres' _) s hs
    · exact ih _ _ hres s hs

theorem ssLoop_hasSub (T : Str) :
    ∀ (parts : List Str) (cur : Str) (res : List Str),
      (∃ pre, pre ++ cur ++ cat parts = T) →
      (∀ s ∈ res, hasSub T s = true) →
      ∀ s ∈ ssLoop parts cur res, hasSub T s = true := by
  intro parts
  induction parts with
  | nil =>
    intro cur res hpre hres s hs
    rw [ssLoop] at hs
    by_cases hc : cur.isEmpty
    · simp only [hc, if_true] at hs; exact hres s hs
    · simp only [hc, if_false] at hs
      rcases List.mem_append.mp hs with h | h
      · exact hres s h
      · rcases List.mem_singleton.mp h with rfl
        rcases hpre with ⟨pre, hpre⟩
        have hcur : hasSub T cur = true := by
          refine hasSub_iff.mpr ⟨pre, [], ?_⟩
          rw [← hpre]; simp [cat]
        exact hasSub_trans hcur (hasSub_strip_self cur)
  | cons part rest ih =>
    intro cur res hpre hres s hs
    rcases hpre with ⟨pre, hpre⟩
    have hpre1 : ∃ p, p ++ (cur ++ part) ++ cat rest = T :=
      ⟨pre, by rw [← hpre]; simp [cat, List.append_assoc]⟩
    have hpre2 : ∃ p, p ++ ([] : Str) ++ cat rest = T :=
      ⟨pre ++ (cur ++ part), by rw [← hpre]; simp [cat, List.append_assoc]⟩
    have hres' : ∀ s ∈ res ++ [strip (cur ++ part)], hasSub T s = true := by
      intro s hs
      rcases List.mem_append.mp hs with h | h
      · exact hres s h
      · rcases List.mem_singleton.mp h with rfl
        rcases hpre1 with ⟨p, hp⟩
        have hcur : hasSub T (cur ++ part) = true :=
          hasSub_iff.mpr ⟨p, cat rest, by rw [← hp]⟩
        exact hasSub_trans hcur (hasSub_strip_self _)
    rw [ssLoop_cons_eq] at hs
    split at hs
    · split at hs
      · exact ih _ _ hpre1 hres s hs
      · split at hs
        · exact ih _ _ hpre1 hres s hs
        · split at hs
          · split at hs
            · split at hs
              · exact ih _ _ hpre2 hres' s hs
              · exact ih _ _ hpre1 hres s hs
            · exact ih _ _ hpre2 hres' s hs
          · exact ih _ _ hpre2 hres' s hs
    · exact ih _ _ hpre1 hres s hs

theorem split_sentences_stripped (t : Str) :
    ∀ s ∈ split_sentences t, strip s = s :=
  ssLoop_stripped _ _ _ (by intro s hs; exact absurd hs (List.not_mem_nil s))

theorem split_sentences_hasSub (t : Str) :
    ∀ s ∈ split_sentences t, hasSub t s = true :=
  ssLoop_hasSub t _ _ _ ⟨[], by simpa using cat_reSplitPunct t⟩
    (by intro s hs; exact absurd hs (List.not_mem_nil s))

theorem ssLoop_eq_nil :
    ∀ (parts : List Str) (cur : Str) (res : List Str),
      ssLoop parts cur res = [] → res = [] ∧ cur ++ cat parts = [] := by
  intro parts
  induction parts with
  | nil =>
    intro cur res h
    rw [ssLoop] at h
    by_cases hc : cur.isEmpty
    · rw [List.isEmpty_iff] at hc
      subst hc
      simp only [List.isEmpty_nil, if_true] at h
      exact ⟨h, by simp [cat]⟩
    · simp only [hc, if_false] at h
      exact absurd (congrArg List.length h) (by simp)
  | cons part rest ih =>
    intro cur res h
    have habs : ∀ (c : Str) (r : List Str), ssLoop rest c (res ++ [strip (cur ++ part)]) = [] → False := by
      intro c r h2
      have := (ih _ _ h2).1
      exact absurd (congrArg List.length this) (by simp)
    rw [ssLoop_cons_eq] at h
    split at h
    · split at h
      · rcases ih _ _ h with ⟨h1, h2⟩
        exact ⟨h1, by rw [← h2]; simp [cat, List.append_assoc]⟩
      · split at h
        · rcases ih _ _ h with ⟨h1, h2⟩
          exact ⟨h1, by rw [← h2]; simp [cat, List.append_assoc]⟩
        · split at h
          · split at h
            · split at h
              · exact absurd (congrArg List.length (ih _ _ h).1) (by simp)
              · rcases ih _ _ h with ⟨h1, h2⟩
                exact ⟨h1, by rw [← h2]; simp [cat, List.append_assoc]⟩
            · exact absurd (congrArg List.length (ih _ _ h).1) (by simp)
          · exact absurd (congrArg List.length (ih _ _ h).1) (by simp)
    · rcases ih _ _ h with ⟨h1, h2⟩
      exact ⟨h1, by rw [← h2]; simp [cat, List.append_assoc]⟩

theorem split_sentences_ne {t : Str} (h : t ≠ []) : split_sentences t ≠ [] := by
  intro habs
  rcases ssLoop_eq_nil _ _ _ habs with ⟨h1, h2⟩
  rw [List.nil_append, cat_reSplitPunct] at h2
  exact h h2

theorem splitPunctAux_no_end {s : Str} (h : ∀ c ∈ s, isEnd c = false) :
    ∀ acc, splitPunctAux s acc = [acc.reverse ++ s] := by
  induction s with
  | nil => intro acc; simp [splitPunctAux]
  | cons c rest ih =>
    intro acc
    rw [splitPunctAux]
    have hc : isEnd c = false := h c (by simp)
    simp only [hc, Bool.false_eq_true, if_false]
    rw [ih (fun x hx => h x (by simp [hx]))]
    simp

theorem split_sentences_no_punct {t : Str} (h : ∀ c ∈ t, isEnd c = false) :
    split_sentences t = if t.isEmpty then [] else [strip t] := by
  unfold split_sentences reSplitPunct
  rw [splitPunctAux_no_end h]
  simp only [List.reverse_nil, List.nil_append]
  cases t with
  | nil => rfl
  | cons c rest =>
    rw [ssLoop_cons_eq]
    have hc : isEnd c = false := h c (by simp)
    simp only [hc, Bool.false_eq_true, if_false]
    rw [ssLoop]
    simp

/-! ## Helper lemmas: the size-bounded chunker -/

theorem sbsLoop_cons_eq (cs ov : Nat) (s : Str) (rest chunks : List Str)
    (current : Str) (clen : Nat) :
    sbsLoop cs ov (s :: rest) chunks current clen =
      if clen + s.length ≤ cs then
        sbsLoop cs ov rest chunks (current ++ s ++ [' ']) (clen + s.length + 1)
      else
        if 0 < ov ∧ ¬ (if current.isEmpty then chunks else chunks ++ [strip current]).isEmpty then
          sbsLoop cs ov rest (if current.isEmpty then chunks else chunks ++ [strip current])
            (get_overlap_text ov current ++ s ++ [' '])
            (get_overlap_text ov current ++ s ++ [' ']).length
        else
          sbsLoop cs ov rest (if current.isEmpty then chunks else chunks ++ [strip current])
            (s ++ [' ']) (s.length + 1) := rfl

theorem sbsLoop_extends (cs ov : Nat) :
    ∀ (sents chunks : List Str) (cur : Str) (clen : Nat),
      ∃ ext, sbsLoop cs ov sents chunks cur clen = chunks ++ ext := by
  intro sents
  induction sents with
  | nil =>
    intro chunks cur clen
    rw [sbsLoop]
    by_cases hc : cur.isEmpty
    · exact ⟨[], by simp [hc]⟩
    · exact ⟨[strip cur], by simp [hc]⟩
  | cons s rest ih =>
    intro chunks cur clen
    rw [sbsLoop_cons_eq]
    by_cases h1 : clen + s.length ≤ cs
    · simp only [h1, if_true]
      exact ih _ _ _
    · simp only [h1, if_false]
      by_cases hc : cur.isEmpty = true
      · rw [if_pos hc]
        split
        · exact ih _ _ _
        · exact ih _ _ _
      · rw [if_neg hc]
        split
        · rcases ih (chunks ++ [strip cur]) (get_overlap_text ov cur ++ s ++ [' '])
            (get_overlap_text ov cur ++ s ++ [' ']).length with ⟨e, he⟩
          exact ⟨[strip cur] ++ e, by rw [he]; simp [List.append_assoc]⟩
        · rcases ih (chunks ++ [strip cur]) (s ++ [' ']) (s.length + 1) with ⟨e, he⟩
          exact ⟨[strip cur] ++ e, by rw [he]; simp [List.append_assoc]⟩

theorem sbsLoop_stripped (cs ov : Nat) :
    ∀ (sents chunks : List Str) (cur : Str) (clen : Nat),
      (∀ c ∈ chunks, strip c = c) →
      ∀ c ∈ sbsLoop cs ov sents chunks cur clen, strip c = c := by
  intro sents
  induction sents with
  | nil =>
    intro chunks cur clen hch c hc
    rw [sbsLoop] at hc
    split at hc
    · exact hch c hc
    · rcases List.mem_append.mp hc with h | h
      · exact hch c h
      · rcases List.mem_singleton.mp h with rfl
        exact strip_idem _
  | cons s rest ih =>
    intro chunks cur clen hch c hc
    have hch' : ∀ c ∈ chunks ++ [strip cur], strip c = c := by
      intro c hc
      rcases List.mem_append.mp hc with h | h
      · exact hch c h
      · rcases List.mem_singleton.mp h with rfl
        exact strip_idem _
    rw [sbsLoop_cons_eq] at hc
    split at hc
    · exact ih _ _ _ hch c hc
    · by_cases hce : cur.isEmpty = true
      · rw [if_pos hce] at hc
        split at hc
        · exact ih _ _ _ hch c hc
        · exact ih _ _ _ hch c hc
      · rw [if_neg hce] at hc
        split at hc
        · exact ih _ _ _ hch' c hc
        · exact ih _ _ _ hch' c hc

theorem sbsLoop_eq_nil (cs ov : Nat) :
    ∀ (sents chunks : List Str) (cur : Str) (clen : Nat),
      sbsLoop cs ov sents chunks cur clen = [] →
      chunks = [] ∧ cur = [] ∧ sents = [] := by
  intro sents
  induction sents with
  | nil =>
    intro chunks cur clen h
    rw [sbsLoop] at h
    split at h
    · rename_i hc
      rw [List.isEmpty_iff] at hc
      exact ⟨h, hc, rfl⟩
    · exact absurd (congrArg List.length h) (by simp)
  | cons s rest ih =>
    intro chunks cur clen h
    rw [sbsLoop_cons_eq] at h
    split at h
    · rcases ih _ _ _ h with ⟨_, hcur, _⟩
      exact absurd (congrArg List.length hcur) (by simp)
    · by_cases hce : cur.isEmpty = true
      · rw [if_pos hce] at h
        split at h
        · rcases ih _ _ _ h with ⟨_, hcur, _⟩
          exact absurd (congrArg List.length hcur) (by simp)
        · rcases ih _ _ _ h with ⟨_, hcur, _⟩
          exact absurd (congrArg List.length hcur) (by simp)
      · rw [if_neg hce] at h
        split at h
        · rcases ih _ _ _ h with ⟨_, hcur, _⟩
          exact absurd (congrArg List.length hcur) (by simp)
        · rcases ih _ _ _ h with ⟨_, hcur, _⟩
          exact absurd (congrArg List.length hcur) (by simp)

theorem split_by_size_ne {cs ov : Nat} {t : Str} (h : t ≠ []) :
    split_by_size cs ov t ≠ [] := by
  unfold split_by_size
  split
  · simp
  · intro habs
    rcases sbsLoop_eq_nil cs ov _ _ _ _ habs with ⟨_, _, hs⟩
    exact split_sentences_ne h hs

theorem split_by_size_stripped (cs ov : Nat) (t : Str) :
    ∀ c ∈ split_by_size cs ov t, strip c = c := by
  unfold split_by_size
  split
  · intro c hc
    rcases List.mem_singleton.mp hc with rfl
    exact strip_idem _
  · exact sbsLoop_stripped cs ov _ _ _ _ (by intro c hc; exact absurd hc (List.not_mem_nil c))

theorem sbsLoop_current_covered (cs ov : Nat) {s : Str} (hst : strip s = s) :
    ∀ (sents chunks : List Str) (cur : Str) (clen : Nat),
      cur ≠ [] → hasSub cur s = true →
      ∃ c ∈ sbsLoop cs ov sents chunks cur clen, hasSub c s = true := by
  intro sents
  induction sents with
  | nil =>
    intro chunks cur clen hne hsub
    rw [sbsLoop]
    have hc : ¬ (cur.isEmpty = true) := by
      cases cur with
      | nil => exact absurd rfl hne
      | cons a r => simp
    rw [if_neg hc]
    exact ⟨strip cur, by simp, hasSub_strip hst hsub⟩
  | cons x rest ih =>
    intro chunks cur clen hne hsub
    rw [sbsLoop_cons_eq]
    have hc : ¬ (cur.isEmpty = true) := by
      cases cur with
      | nil => exact absurd rfl hne
      | cons a r => simp
    split
    · exact ih _ (cur ++ x ++ [' ']) _ (by simp)
        (by rcases hasSub_iff.mp hsub with ⟨u, v, rfl⟩
            exact hasSub_iff.mpr ⟨u, v ++ x ++ [' '], by simp [List.append_assoc]⟩)
    · have hmem : strip cur ∈ chunks ++ [strip cur] := by simp
      have hsubst : hasSub (strip cur) s = true := hasSub_strip hst hsub
      split
      · rcases sbsLoop_extends cs ov rest (chunks ++ [strip cur]) _ _ with ⟨e, he⟩
        exact ⟨strip cur, by rw [he]; exact List.mem_append.mpr (Or.inl hmem), hsubst⟩
      · rcases sbsLoop_extends cs ov rest (chunks ++ [strip cur]) _ _ with ⟨e, he⟩
        exact ⟨strip cur, by rw [he]; exact List.mem_append.mpr (Or.inl hmem), hsubst⟩

theorem sbsLoop_complete (cs ov : Nat) {s : Str} (hst : strip s = s) :
    ∀ (sents chunks : List Str) (cur : Str) (clen : Nat),
      s ∈ sents →
      ∃ c ∈ sbsLoop cs ov sents chunks cur clen, hasSub c s = true := by
  intro sents
  induction sents with
  | nil => intro chunks cur clen hs; exact absurd hs (List.not_mem_nil s)
  | cons x rest ih =>
    intro chunks cur clen hs
    rcases List.mem_cons.mp hs with rfl | hs
    · rw [sbsLoop_cons_eq]
      split
      · exact sbsLoop_current_covered cs ov hst rest chunks (cur ++ s ++ [' '])
          (clen + s.length + 1) (by simp)
          (hasSub_iff.mpr ⟨cur, [' '], by simp [List.append_assoc]⟩)
      · split
        · split
          · exact sbsLoop_current_covered cs ov hst rest _
              (get_overlap_text ov cur ++ s ++ [' ']) _ (by simp)
              (hasSub_iff.mpr ⟨get_overlap_text ov cur, [' '], by simp [List.append_assoc]⟩)
          · exact sbsLoop_current_covered cs ov hst rest _ (s ++ [' ']) _ (by simp)
              (hasSub_iff.mpr ⟨[], [' '], by simp⟩)
        · split
          · exact sbsLoop_current_covered cs ov hst rest _
              (get_overlap_text ov cur ++ s ++ [' ']) _ (by simp)
              (hasSub_iff.mpr ⟨get_overlap_text ov cur, [' '], by simp [List.append_assoc]⟩)
          · exact sbsLoop_current_covered cs ov hst rest _ (s ++ [' ']) _ (by simp)
              (hasSub_iff.mpr ⟨[], [' '], by simp⟩)
    · rw [sbsLoop_cons_eq]
      split
      · exact ih _ _ _ hs
      · split
        · split
          · exact ih _ _ _ hs
          · exact ih _ _ _ hs
        · split
          · exact ih _ _ _ hs
          · exact ih _ _ _ hs

theorem split_by_size_complete (cs ov : Nat) (t : Str) :
    ∀ s ∈ split_sentences t, ∃ c ∈ split_by_size cs ov t, hasSub c s = true := by
  intro s hs
  have hst : strip s = s := split_sentences_stripped t s hs
  unfold split_by_size
  split
  · exact ⟨strip t, by simp, hasSub_strip hst (split_sentences_hasSub t s hs)⟩
  · exact sbsLoop_complete cs ov hst _ _ _ _ hs

/-! ## Helper lemmas: chunk length bounds -/

theorem ovLoop_length (ov : Nat) :
    ∀ (ws : List Str) (acc : Str) (cur : Nat),
      acc.length = cur → cur ≤ ov → (ovLoop ov ws acc cur).length ≤ ov := by
  intro ws
  induction ws with
  | nil => intro acc cur h1 h2; rw [ovLoop]; omega
  | cons w rest ih =>
    intro acc cur h1 h2
    rw [ovLoop]
    split
    · exact ih (w ++ ' ' :: acc) (cur + w.length + 1) (by simp; omega) (by omega)
    · omega

theorem get_overlap_text_length_le (ov : Nat) (t : Str) :
    (get_overlap_text ov t).length ≤ ov := by
  unfold get_overlap_text
  split
  · omega
  · exact le_trans (length_strip_le _) (ovLoop_length ov _ [] 0 rfl (by omega))

theorem sbsLoop_bound (cs ov : Nat) (orig : List Str) (hos : ∀ s ∈ orig, strip s = s) :
    ∀ (sents chunks : List Str) (cur : Str) (clen : Nat),
      (∀ s ∈ sents, s ∈ orig) →
      (∀ c ∈ chunks, c.length ≤ cs + ov ∨ ∃ s ∈ orig, cs < s.length ∧ hasSub c s = true) →
      (cur = [] ∨ ∃ x, cur = x ++ [' '] ∧
        (cur.length ≤ cs + ov + 1 ∨ ∃ s ∈ orig, cs < s.length ∧ hasSub cur s = true)) →
      clen = cur.length →
      ∀ c ∈ sbsLoop cs ov sents chunks cur clen,
        c.length ≤ cs + ov ∨ ∃ s ∈ orig, cs < s.length ∧ hasSub c s = true := by
  intro sents
  induction sents with
  | nil =>
    intro chunks cur clen hso hch hcur hclen c hc
    rw [sbsLoop] at hc
    split at hc
    · exact hch c hc
    · rcases List.mem_append.mp hc with h | h
      · exact hch c h
      · rcases List.mem_singleton.mp h with rfl
        rcases hcur with rfl | ⟨x, rfl, hlen | ⟨s, hmem, hover, hsubc⟩⟩
        · rename_i hne; simp at hne
        · left
          rw [strip_snoc_ws (by decide) x]
          have := length_strip_le x
          simp [List.length_append] at hlen
          omega
        · exact Or.inr ⟨s, hmem, hover, hasSub_strip (hos s hmem) hsubc⟩
  | cons s rest ih =>
    intro chunks cur clen hso hch hcur hclen c hc
    have hso' : ∀ x ∈ rest, x ∈ orig := fun x hx => hso x (by simp [hx])
    have hsmem : s ∈ orig := hso s (by simp)
    have hchunksE : ∀ x ∈ chunks ++ [strip cur],
        x.length ≤ cs + ov ∨ ∃ s ∈ orig, cs < s.length ∧ hasSub x s = true := by
      intro x hx
      rcases List.mem_append.mp hx with h | h
      · exact hch x h
      · rcases List.mem_singleton.mp h with rfl
        rcases hcur with rfl | ⟨y, rfl, hlen | ⟨z, hmem, hover, hsubc⟩⟩
        · left
          simp [strip]
          calc (stripEnd (stripStart [])).length = 0 := by simp [stripStart, stripEnd]
          _ ≤ cs + ov := by omega
        · left
          rw [strip_snoc_ws (by decide) y]
          have := length_strip_le y
          simp [List.length_append] at hlen
          omega
        · exact Or.inr ⟨z, hmem, hover, hasSub_strip (hos z hmem) hsubc⟩
    rw [sbsLoop_cons_eq] at hc
    split at hc
    · rename_i hfit
      refine ih chunks (cur ++ s ++ [' ']) _ hso' hch (Or.inr ⟨cur ++ s, rfl, Or.inl ?_⟩)
        (by simp [List.length_append]; omega) c hc
      simp [List.length_append]
      omega
    · have hseed : ∀ x, (get_overlap_text ov cur ++ s ++ [' ']) = x ++ [' '] →
        (get_overlap_text ov cur ++ s ++ [' ']).length ≤ cs + ov + 1 ∨
          ∃ z ∈ orig, cs < z.length ∧ hasSub (get_overlap_text ov cur ++ s ++ [' ']) z = true := by
        intro x hx
        by_cases hsl : s.length ≤ cs
        · left
          have h1 := get_overlap_text_length_le ov cur
          simp [List.length_append]
          omega
        · exact Or.inr ⟨s, hsmem, by omega,
            hasSub_iff.mpr ⟨get_overlap_text ov cur, [' '], by simp [List.append_assoc]⟩⟩
      have hfresh : (s ++ [' ']).length ≤ cs + ov + 1 ∨
          ∃ z ∈ orig, cs < z.length ∧ hasSub (s ++ [' ']) z = true := by
        by_cases hsl : s.length ≤ cs
        · left; simp; omega
        · exact Or.inr ⟨s, hsmem, by omega, hasSub_iff.mpr ⟨[], [' '], by simp⟩⟩
      by_cases hce : cur.isEmpty = true
      · rw [if_pos hce] at hc
        split at hc
        · exact ih chunks _ _ hso' hch
            (Or.inr ⟨get_overlap_text ov cur ++ s, rfl, hseed _ rfl⟩) rfl c hc
        · exact ih chunks _ _ hso' hch (Or.inr ⟨s, rfl, hfresh⟩) (by simp [List.length_append]) c hc
      · rw [if_neg hce] at hc
        split at hc
        · exact ih (chunks ++ [strip cur]) _ _ hso' hchunksE
            (Or.inr ⟨get_overlap_text ov cur ++ s, rfl, hseed _ rfl⟩) rfl c hc
        · exact ih (chunks ++ [strip cur]) _ _ hso' hchunksE
            (Or.inr ⟨s, rfl, hfresh⟩) (by simp [List.length_append]) c hc

theorem split_by_size_bound (cs ov : Nat) (t : Str) :
    ∀ c ∈ split_by_size cs ov t,
      c.length ≤ cs + ov ∨ ∃ s ∈ split_sentences t, cs < s.length ∧ hasSub c s = true := by
  unfold split_by_size
  split
  · intro c hc
    rcases List.mem_singleton.mp hc with rfl
    rename_i hle
    exact Or.inl (le_trans (length_strip_le t) (by omega))
  · exact sbsLoop_bound cs ov (split_sentences t) (split_sentences_stripped t) _ _ _ _
      (fun s hs => hs)
      (by intro c hc; exact absurd hc (List.not_mem_nil c))
      (Or.inl rfl) rfl

/-! ## Helper lemmas: the overlap text is whole words -/

theorem pywordsAux_words :
    ∀ (l acc : Str), (acc ≠ [] → ∀ c ∈ acc, pyWs c = false) →
      ∀ w ∈ pywordsAux l acc, w ≠ [] ∧ ∀ c ∈ w, pyWs c = false := by
  intro l
  induction l with
  | nil =>
    intro acc hacc w hw
    rw [pywordsAux] at hw
    split at hw
    · exact absurd hw (List.not_mem_nil w)
    · rcases List.mem_singleton.mp hw with rfl
      rename_i hne
      have hne2 : acc ≠ [] := fun hh => hne (by simp [hh])
      refine ⟨by simpa using hne2, ?_⟩
      intro c hc
      exact hacc hne2 c (List.mem_reverse.mp hc)
  | cons a rest ih =>
    intro acc hacc w hw
    rw [pywordsAux] at hw
    split at hw
    · split at hw
      · exact ih [] (by intro h; exact absurd rfl h) w hw
      · rcases List.mem_cons.mp hw with rfl | hw2
        · rename_i hne
          have hne2 : acc ≠ [] := fun hh => hne (by simp [hh])
          refine ⟨by simpa using hne2, ?_⟩
          intro c hc
          exact hacc hne2 c (List.mem_reverse.mp hc)
        · exact ih [] (by intro h; exact absurd rfl h) w hw2
    · rename_i hws
      refine ih (a :: acc) ?_ w hw
      intro _ c hc
      rcases List.mem_cons.mp hc with rfl | hc2
      · simpa using hws
      · exact hacc (by rintro rfl; exact absurd hc2 (List.not_mem_nil c)) c hc2

theorem pywords_words (l : Str) :
    ∀ w ∈ pywords l, w ≠ [] ∧ ∀ c ∈ w, pyWs c = false :=
  pywordsAux_words l [] (by intro h; exact absurd rfl h)

theorem joinWords_cons_cons (w x : Str) (xs : List Str) :
    joinWords (w :: x :: xs) = w ++ ' ' :: joinWords (x :: xs) := rfl

theorem joinTrail_append (a b : List Str) :
    joinTrail (a ++ b) = joinTrail a ++ joinTrail b := by
  unfold joinTrail
  rw [List.map_append, cat_append]

theorem ovLoop_shape (ov : Nat) :
    ∀ (R : List Str) (acc : Str) (cur : Nat),
      ∃ m, m ≤ R.length ∧ ovLoop ov R acc cur = joinTrail ((R.take m).reverse) ++ acc := by
  intro R
  induction R with
  | nil => intro acc cur; exact ⟨0, by omega, by rw [ovLoop]; simp [joinTrail, cat]⟩
  | cons w rest ih =>
    intro acc cur
    rw [ovLoop]
    split
    · rcases ih (w ++ ' ' :: acc) (cur + w.length + 1) with ⟨m, hm, heq⟩
      refine ⟨m + 1, by simp; omega, ?_⟩
      rw [heq]
      rw [List.take_succ_cons, List.reverse_cons, joinTrail_append]
      simp [joinTrail, cat, List.append_assoc]
    · exact ⟨0, by omega, by simp [joinTrail, cat]⟩

theorem joinTrail_eq_joinWords {ws : List Str} (h : ws ≠ []) :
    joinTrail ws = joinWords ws ++ [' '] := by
  induction ws with
  | nil => exact absurd rfl h
  | cons w rest ih =>
    cases rest with
    | nil => simp [joinTrail, joinWords, cat]
    | cons x xs =>
      rw [joinWords_cons_cons]
      have h2 : joinTrail (w :: x :: xs) = (w ++ [' ']) ++ joinTrail (x :: xs) := by
        simp [joinTrail, cat]
      have ihh := ih (List.cons_ne_nil x xs)
      rw [h2, ihh]
      simp [List.append_assoc]

theorem mem_of_getLast_some {l : Str} {c : Char} (h : l.getLast? = some c) : c ∈ l := by
  induction l with
  | nil => simp at h
  | cons a r ih =>
    cases r with
    | nil =>
      simp at h
      subst h
      simp
    | cons b bs =>
      rw [List.getLast?_cons_cons] at h
      exact List.mem_cons.mpr (Or.inr (ih h))

theorem joinWords_ends_not_ws {ws : List Str}
    (h : ∀ w ∈ ws, w ≠ [] ∧ ∀ c ∈ w, pyWs c = false) :
    (∀ c, (joinWords ws).head? = some c → pyWs c = false) ∧
    (∀ c, (joinWords ws).getLast? = some c → pyWs c = false) := by
  induction ws with
  | nil => exact ⟨by intro c hc; simp [joinWords] at hc, by intro c hc; simp [joinWords] at hc⟩
  | cons w rest ih =>
    rcases h w (by simp) with ⟨hwne, hwc⟩
    have hrest : ∀ w ∈ rest, w ≠ [] ∧ ∀ c ∈ w, pyWs c = false :=
      fun x hx => h x (by simp [hx])
    cases rest with
    | nil =>
      constructor
      · intro c hc
        rw [show joinWords [w] = w from rfl] at hc
        cases w with
        | nil => simp at hc
        | cons a r =>
          rw [List.head?_cons] at hc
          cases Option.some.inj hc
          exact hwc _ (by simp)
      · intro c hc
        rw [show joinWords [w] = w from rfl] at hc
        exact hwc c (mem_of_getLast_some hc)
    | cons x xs =>
      rcases ih hrest with ⟨ih1, ih2⟩
      constructor
      · intro c hc
        rw [joinWords_cons_cons] at hc
        cases w with
        | nil => exact absurd rfl hwne
        | cons a r =>
          rw [List.cons_append, List.head?_cons] at hc
          cases Option.some.inj hc
          exact hwc _ (by simp)
      · intro c hc
        rw [joinWords_cons_cons, List.getLast?_append] at hc
        have hne : joinWords (x :: xs) ≠ [] := by
          rcases hrest x (by simp) with ⟨hxne, _⟩
          cases xs with
          | nil => simpa [joinWords] using hxne
          | cons y ys => simp [joinWords]
        cases hgl : (' ' :: joinWords (x :: xs)).getLast? with
        | none =>
          exact absurd hgl (by simp)
        | some d =>
          rw [hgl] at hc
          rcases Option.some.inj hc.symm with rfl
          have : (' ' :: joinWords (x :: xs)).getLast? = (joinWords (x :: xs)).getLast? := by
            cases hj : joinWords (x :: xs) with
            | nil => exact absurd hj hne
            | cons b bs => simp [hj, List.getLast?_cons_cons]
          rw [this] at hgl
          exact ih2 c hgl

theorem rev_take_rev {α : Type} (l : List α) (m : Nat) :
    (l.reverse.take m).reverse = l.drop (l.length - m) := by
  have h1 := List.reverse_take (l := l.reverse) (n := m)
  rw [h1, List.reverse_reverse, List.length_reverse]

theorem get_overlap_text_words (ov : Nat) (t : Str) (h : ov < t.length) :
    ∃ k, get_overlap_text ov t = joinWords ((pywords t).drop k) := by
  unfold get_overlap_text
  rw [if_neg (by omega)]
  rcases ovLoop_shape ov (pywords t).reverse [] 0 with ⟨m, hm, heq⟩
  rw [heq, List.append_nil]
  rw [rev_take_rev]
  set k := (pywords t).length - m with hk
  refine ⟨k, ?_⟩
  cases hdrop : (pywords t).drop k with
  | nil => simp [joinTrail, joinWords, cat, strip, stripStart, stripEnd]
  | cons w ws =>
    have hwords : ∀ x ∈ w :: ws, x ≠ [] ∧ ∀ c ∈ x, pyWs c = false := by
      intro x hx
      exact pywords_words t x (by
        have := List.mem_of_mem_drop (by rw [hdrop]; exact hx)
        exact this)
    rw [joinTrail_eq_joinWords (by simp), strip_snoc_ws (by decide)]
    rcases joinWords_ends_not_ws hwords with ⟨h1, h2⟩
    exact strip_eq_self h1 h2

/-! ## Helper lemmas: metadata tagging -/

theorem tagIdx_length (n : Nat) (src : String) :
    ∀ (i : Nat) (l : List Str), (tagIdx n src i l).length = l.length := by
  intro i l
  induction l generalizing i with
  | nil => rfl
  | cons c rest ih => rw [tagIdx]; simp [ih]

theorem tagIdx_map_fst (n : Nat) (src : String) :
    ∀ (i : Nat) (l : List Str), (tagIdx n src i l).map Prod.fst = l := by
  intro i l
  induction l generalizing i with
  | nil => rfl
  | cons c rest ih => rw [tagIdx]; simp [ih]

theorem tagIdx_map_index (n : Nat) (src : String) :
    ∀ (i : Nat) (l : List Str),
      (tagIdx n src i l).map (fun p => p.2.chunk_index) = List.range' (i + 1) l.length := by
  intro i l
  induction l generalizing i with
  | nil => rfl
  | cons c rest ih =>
    rw [tagIdx]
    simp only [List.map_cons, List.length_cons, List.range'_succ]
    exact congrArg (List.cons (i + 1)) (ih (i + 1))

theorem tagIdx_total (n : Nat) (src : String) :
    ∀ (i : Nat) (l : List Str) (p : Str × ChunkMetadata),
      p ∈ tagIdx n src i l → p.2.total_chunks = n := by
  intro i l
  induction l generalizing i with
  | nil => intro p hp; exact absurd hp (List.not_mem_nil p)
  | cons c rest ih =>
    intro p hp
    rw [tagIdx] at hp
    rcases List.mem_cons.mp hp with rfl | hp2
    · rfl
    · exact ih (i + 1) p hp2

theorem tagIdx_fst_mem (n : Nat) (src : String) :
    ∀ (i : Nat) (l : List Str) (p : Str × ChunkMetadata),
      p ∈ tagIdx n src i l → p.1 ∈ l := by
  intro i l
  induction l generalizing i with
  | nil => intro p hp; exact absurd hp (List.not_mem_nil p)
  | cons c rest ih =>
    intro p hp
    rw [tagIdx] at hp
    rcases List.mem_cons.mp hp with rfl | hp2
    · simp
    · exact List.mem_cons.mpr (Or.inr (ih (i + 1) p hp2))

/-! ## Helper lemmas: every emitted chunk is stripped (all paths) -/

theorem split_circular_stripped (cs ov : Nat) (t : Str) :
    ∀ c ∈ split_circular cs ov t, strip c = c := by
  intro c hc
  unfold split_circular at hc
  rcases List.mem_flatMap.mp hc with ⟨p, hp, hcp⟩
  split at hcp
  · rcases List.mem_singleton.mp hcp with rfl
    exact strip_idem _
  · exact split_by_size_stripped cs ov p c hcp

theorem legalLoop_stripped (cs ov : Nat) :
    ∀ (parts chunks : List Str) (cur : Str),
      (∀ c ∈ chunks, strip c = c) →
      ∀ c ∈ legalLoop cs ov parts chunks cur, strip c = c := by
  intro parts
  induction parts with
  | nil =>
    intro chunks cur hch c hc
    rw [legalLoop] at hc
    split at hc
    · exact hch c hc
    · rcases List.mem_append.mp hc with h | h
      · exact hch c h
      · exact split_by_size_stripped cs ov cur c h
  | cons part rest ih =>
    intro chunks cur hch c hc
    rw [legalLoop] at hc
    dsimp only at hc
    split at hc
    · refine ih _ _ ?_ c hc
      split
      · intro x hx
        rcases List.mem_append.mp hx with h | h
        · exact hch x h
        · exact split_by_size_stripped cs ov cur x h
      · exact hch
    · split at hc
      · refine ih _ _ ?_ c hc
        intro x hx
        rcases List.mem_append.mp hx with h | h
        · exact hch x h
        · exact split_by_size_stripped cs ov _ x h
      · exact ih _ _ hch c hc

theorem split_legal_document_stripped (cs ov : Nat) (t : Str) :
    ∀ c ∈ split_legal_document cs ov t, strip c = c :=
  legalLoop_stripped cs ov _ _ _ (by intro c hc; exact absurd hc (List.not_mem_nil c))

theorem split_faq_stripped (cs ov : Nat) (t : Str) :
    ∀ c ∈ split_faq cs ov t, strip c = c := by
  intro c hc
  unfold split_faq at hc
  dsimp only at hc
  split at hc
  · exact split_by_size_stripped cs ov t c hc
  · rcases List.mem_flatMap.mp hc with ⟨m, hm, hcm⟩
    split at hcm
    · rcases List.mem_singleton.mp hcm with rfl
      exact strip_idem _
    · split at hcm
      · rcases List.mem_cons.mp hcm with rfl | h2
        · refine strip_eq_self ?_ ?_
          · intro d hd
            rw [show S "Q: " ++ strip m.2.1 ++ S "\nA: " ++
                  pySliceTo ((cs : Int) - (List.length (strip m.2.1) : Int) - 10) (strip m.2.2) ++
                  S "..." = 'Q' :: (S ": " ++ strip m.2.1 ++ S "\nA: " ++
                  pySliceTo ((cs : Int) - (List.length (strip m.2.1) : Int) - 10) (strip m.2.2) ++
                  S "...") from by simp [S, List.append_assoc]] at hd
            rw [List.head?_cons] at hd
            cases Option.some.inj hd
            decide
          · intro d hd
            rw [show S "Q: " ++ strip m.2.1 ++ S "\nA: " ++
                  pySliceTo ((cs : Int) - (List.length (strip m.2.1) : Int) - 10) (strip m.2.2) ++
                  S "..." = (S "Q: " ++ strip m.2.1 ++ S "\nA: " ++
                  pySliceTo ((cs : Int) - (List.length (strip m.2.1) : Int) - 10) (strip m.2.2) ++
                  S "..") ++ ['.'] from by simp [S, List.append_assoc]] at hd
            rw [List.getLast?_append] at hd
            cases Option.some.inj hd
            decide
        · exact split_by_size_stripped cs ov _ c h2
      · rcases List.mem_singleton.mp hcm with rfl
        exact strip_idem _

theorem split_text_stripped (cs ov : Nat) (src : String) (t : Str) :
    ∀ p ∈ split_text cs ov src t, strip p.1 = p.1 := by
  intro p hp
  unfold split_text at hp
  split at hp
  · exact absurd hp (List.not_mem_nil p)
  · have hfst := tagIdx_fst_mem _ src 0 _ p hp
    split at hfst
    · exact split_legal_document_stripped cs ov t p.1 hfst
    · split at hfst
      · exact split_circular_stripped cs ov t p.1 hfst
      · split at hfst
        · exact split_faq_stripped cs ov t p.1 hfst
        · exact split_by_size_stripped cs ov t p.1 hfst

/-! ## Helper lemmas: whitespace-only input -/

theorem hasSub_ws_false (pat : Str) {tl : Str} (hws : ∀ c ∈ tl, pyWs c = true)
    {k : Char} (hk : pat.head? = some k) (hkw : pyWs k = false) :
    hasSub tl pat = false := by
  cases h : hasSub tl pat with
  | false => rfl
  | true =>
    have hmem : k ∈ pat := by
      cases pat with
      | nil => simp at hk
      | cons a r =>
        rw [List.head?_cons] at hk
        cases Option.some.inj hk
        simp
    exact absurd (hws k (hasSub_mem h hmem)) (by simp [hkw])

theorem lowerCh_ws {c : Char} (h : pyWs c = true) : lowerCh c = c := by
  simp only [pyWs, Bool.or_eq_true, beq_iff_eq] at h
  rcases h with ((((h | h) | h) | h) | h) | h <;> subst h <;> decide

theorem pyWs_not_end {c : Char} (h : pyWs c = true) : isEnd c = false := by
  simp only [pyWs, Bool.or_eq_true, beq_iff_eq] at h
  rcases h with ((((h | h) | h) | h) | h) | h <;> subst h <;> decide

theorem detect_ws_generic {t : Str} (h : ∀ c ∈ t, pyWs c = true) :
    detect_document_type t = "generic" := by
  unfold detect_document_type
  have htl : ∀ c ∈ (t.map lowerCh).take 2000, pyWs c = true := by
    intro c hc
    have hc2 : c ∈ t.map lowerCh := List.take_subset _ _ hc
    rcases List.mem_map.mp hc2 with ⟨a, ha, rfl⟩
    rw [lowerCh_ws (h a ha)]
    exact h a ha
  dsimp only
  rw [hasSub_ws_false (S "regulation") htl rfl (by decide),
      hasSub_ws_false (S "circular") htl rfl (by decide),
      hasSub_ws_false (S "frequently asked questions") htl rfl (by decide),
      hasSub_ws_false (S "faq") htl rfl (by decide),
      hasSub_ws_false (S "act") htl rfl (by decide)]
  simp

theorem split_by_size_ws {cs ov : Nat} {t : Str}
    (hws : ∀ c ∈ t, pyWs c = true) (hne : t ≠ []) :
    split_by_size cs ov t = [[]] := by
  unfold split_by_size
  split
  · rw [strip_all_ws hws]
  · have hsp : split_sentences t = [strip t] := by
      rw [split_sentences_no_punct (fun c hc => pyWs_not_end (hws c hc))]
      rw [if_neg (by simpa using hne)]
    rw [hsp, strip_all_ws hws, sbsLoop_cons_eq]
    rw [if_pos (by simp)]
    rw [sbsLoop]
    rw [if_neg (by simp)]
    rw [show ([] : Str) ++ [] ++ [' '] = [] ++ [' '] from rfl, strip_snoc_ws (by decide)]
    rfl

/-! ## Helper lemmas: FAQ fallback and oversized atoms -/

theorem split_faq_fallback {cs ov : Nat} {t : Str}
    (hz : faqFind (t.length + 1) t = []) :
    split_faq cs ov t = split_by_size cs ov t := by
  unfold split_faq
  rw [hz]
  simp [split_generic]

theorem split_by_size_single_oversized {cs ov : Nat} {t : Str}
    (h1 : split_sentences t = [t]) (h2 : cs < t.length) :
    split_by_size cs ov t = [t] := by
  have hst : strip t = t := split_sentences_stripped t t (by rw [h1]; simp)
  unfold split_by_size
  rw [if_neg (by omega), h1, sbsLoop_cons_eq]
  rw [if_neg (by simpa using h2)]
  simp only [List.isEmpty_nil, if_true]
  rw [if_neg (by simp)]
  rw [sbsLoop]
  rw [if_neg (by simp)]
  rw [strip_snoc_ws (by decide), hst]
  rfl

theorem sbsLoop_first (cs ov : Nat) :
    ∀ (sents : List Str) (cur : Str) (clen : Nat), cur ≠ [] →
      ∃ x : Str, (sbsLoop cs ov sents [] cur clen).head? = some (strip (cur ++ x)) := by
  intro sents
  induction sents with
  | nil =>
    intro cur clen hne
    rw [sbsLoop]
    rw [if_neg (by simpa using hne)]
    exact ⟨[], by simp⟩
  | cons s rest ih =>
    intro cur clen hne
    have hc : ¬ (cur.isEmpty = true) := by simpa using hne
    rw [sbsLoop_cons_eq]
    split
    · rcases ih (cur ++ s ++ [' ']) (clen + s.length + 1) (by simp) with ⟨x, hx⟩
      refine ⟨s ++ [' '] ++ x, ?_⟩
      rw [hx]
      congr 2
      simp [List.append_assoc]
    · have hhead : ∀ (c2 : Str) (n : Nat),
          (sbsLoop cs ov rest ([] ++ [strip cur]) c2 n).head? = some (strip cur) := by
        intro c2 n
        rcases sbsLoop_extends cs ov rest ([] ++ [strip cur]) c2 n with ⟨e, he⟩
        rw [he]
        rfl
      split
      · exact ⟨[], by rw [List.append_nil]; exact hhead _ _⟩
      · exact ⟨[], by rw [List.append_nil]; exact hhead _ _⟩

theorem split_by_size_first (cs ov : Nat) (t : Str) (h : cs < t.length) :
    ∀ (x : Str) (r : List Str), split_sentences t = x :: r →
      ∃ y, (split_by_size cs ov t).head? = some (strip (x ++ y)) := by
  intro x r hsp
  unfold split_by_size
  rw [if_neg (by omega), hsp, sbsLoop_cons_eq]
  split
  · rcases sbsLoop_first cs ov r ([] ++ x ++ [' ']) (0 + x.length + 1) (by simp) with ⟨y, hy⟩
    refine ⟨[' '] ++ y, ?_⟩
    rw [hy]
    congr 2
    simp [List.append_assoc]
  · simp only [List.isEmpty_nil, if_true]
    rw [if_neg (by simp)]
    rcases sbsLoop_first cs ov r (x ++ [' ']) (x.length + 1) (by simp) with ⟨y, hy⟩
    refine ⟨[' '] ++ y, ?_⟩
    rw [hy]
    congr 2
    simp [List.append_assoc]

/-! ## Claims -/

/-- C1 (counterexample): the completeness claim fails as stated: on the
structural (regulation) path, the pre-anchor segment "Intro text here."
(17 characters, below the 100-character threshold) is dropped when the
"CHAPTER I" anchor starts a new section, so that sentence is contained
in no output chunk. -/
theorem C1_counterexample :
    ¬ (∀ s ∈ split_sentences (S "Intro text here. CHAPTER I This regulation is about margin."),
        ∃ c ∈ (split_text 1000 200 "src"
            (S "Intro text here. CHAPTER I This regulation is about margin.")).map Prod.fst,
          hasSub c s = true) := by decide

/-- C1 (amended): for every input routed to the generic strategy, every
sentence produced by the sentence segmenter occurs as a substring of some
output chunk of `split_text` — no sentence is dropped on the generic
(size-bounded) path. -/
theorem C1_generic_completeness (cs ov : Nat) (src : String) (t : Str)
    (h : detect_document_type t = "generic") :
    ∀ s ∈ split_sentences t,
      ∃ c ∈ (split_text cs ov src t).map Prod.fst, hasSub c s = true := by
  intro s hs
  by_cases hne : t.isEmpty
  · rw [List.isEmpty_iff] at hne
    subst hne
    rw [show split_sentences ([] : Str) = [] from rfl] at hs
    exact absurd hs (List.not_mem_nil s)
  · unfold split_text
    rw [if_neg hne]
    dsimp only
    rw [if_neg (by rw [h]; decide), if_neg (by rw [h]; decide), if_neg (by rw [h]; decide)]
    unfold split_generic
    rw [tagIdx_map_fst]
    exact split_by_size_complete cs ov t s hs

/-- C1 (witness): the generic-path completeness theorem applied at a
concrete two-sentence input. -/
theorem C1_witness :
    ∃ c ∈ (split_text 1000 200 "u" (S "Hello there. Bye now.")).map Prod.fst,
      hasSub c (S "Hello there.") = true :=
  C1_generic_completeness 1000 200 "u" (S "Hello there. Bye now.") (by decide)
    (S "Hello there.") (by decide)

/-- C2 (counterexample): a whitespace-only input does not yield an empty
sequence: `split_text` only tests `if not text`, so `" "` produces one
chunk (whose text is empty after stripping). -/
theorem C2_counterexample : split_text 1000 200 "src" (S " ") ≠ [] := by decide

/-- C2 (amended): the empty string yields an empty sequence, but a
whitespace-only non-empty input yields exactly one chunk whose text is
empty (index 1 of 1, no section, no regulation type); no error in either
case. -/
theorem C2_empty_and_whitespace (cs ov : Nat) (src : String) :
    split_text cs ov src [] = [] ∧
    ∀ t : Str, t ≠ [] → (∀ c ∈ t, pyWs c = true) →
      split_text cs ov src t =
        [([], { source := src, chunk_index := 1, total_chunks := 1,
                section_label := none, regulation_type := none })] := by
  constructor
  · rfl
  · intro t hne hws
    unfold split_text
    rw [if_neg (by simpa using hne)]
    dsimp only
    rw [if_neg (by rw [detect_ws_generic hws]; decide),
        if_neg (by rw [detect_ws_generic hws]; decide),
        if_neg (by rw [detect_ws_generic hws]; decide)]
    unfold split_generic
    rw [split_by_size_ws hws hne]
    rfl

/-- C2 (witness): the amended claim applied at the one-space input. -/
theorem C2_witness :
    split_text 1000 200 "u" (S " ") =
      [([], { source := "u", chunk_index := 1, total_chunks := 1,
              section_label := none, regulation_type := none })] :=
  (C2_empty_and_whitespace 1000 200 "u").2 (S " ") (by decide) (by decide)

/-- C3 (counterexample): bound respect fails as stated: with
`chunk_size = 10`, `chunk_overlap = 6` the Size-Bounded Chunker emits a
chunk of length 15 (an overlap seed followed by a 10-character sentence)
although no sentence of the input exceeds `chunk_size`. -/
theorem C3_counterexample :
    ∃ c ∈ split_by_size 10 6 (S "Aaaa bbbb. Cccc dddd. Eeee."), 10 < c.length ∧
      ∀ s ∈ split_sentences (S "Aaaa bbbb. Cccc dddd. Eeee."), s.length ≤ 10 := by decide

/-- C3 (amended): every chunk of the Size-Bounded Chunker either has
length at most `chunk_size + chunk_overlap` (an overlap-seeded chunk may
exceed `chunk_size` by up to the overlap length) or contains an oversized
sentence (one longer than `chunk_size`) of its input as a substring. -/
theorem C3_size_bound (cs ov : Nat) (t : Str) :
    ∀ c ∈ split_by_size cs ov t,
      c.length ≤ cs + ov ∨ ∃ s ∈ split_sentences t, cs < s.length ∧ hasSub c s = true :=
  split_by_size_bound cs ov t

/-- C3 (witness): the amended bound applied at a concrete input. -/
theorem C3_witness :
    (S "Hi.").length ≤ 10 + 3 ∨
      ∃ s ∈ split_sentences (S "Hi."), 10 < s.length ∧ hasSub (S "Hi.") s = true :=
  C3_size_bound 10 3 (S "Hi.") (S "Hi.") (by decide)

/-- C4 (counterexample): the claim fails as stated for single oversized
sentences whose text routes away from the generic strategy: the
27-character single sentence "Faq quality answers matter." (chunk_size
10) is routed to the FAQ splitter, whose loose `qa_pattern` matches the
bare `q`…`a` characters inside the words and emits reformatted
"Q: …\nA: …"/continuation chunks instead of the sentence verbatim. -/
theorem C4_counterexample :
    split_sentences (S "Faq quality answers matter.") = [S "Faq quality answers matter."] ∧
    10 < (S "Faq quality answers matter.").length ∧
    (split_text 10 3 "doc" (S "Faq quality answers matter.")).map Prod.fst ≠
      [S "Faq quality answers matter."] := by decide

/-- C4 (amended): an input that is a single sentence longer than
`chunk_size` and classified generic is returned as exactly one chunk,
verbatim — not truncated, nothing appended, no error; a single oversized
sentence whose lead text triggers another strategy is handed to that
strategy instead and need not come back verbatim. -/
theorem C4_oversized_atom (cs ov : Nat) (src : String) (t : Str)
    (h1 : split_sentences t = [t]) (h2 : cs < t.length)
    (h3 : detect_document_type t = "generic") :
    (split_text cs ov src t).map Prod.fst = [t] := by
  unfold split_text
  rw [if_neg (by intro he; rw [List.isEmpty_iff] at he; subst he; simp at h2)]
  dsimp only
  rw [if_neg (by rw [h3]; decide), if_neg (by rw [h3]; decide), if_neg (by rw [h3]; decide)]
  unfold split_generic
  rw [split_by_size_single_oversized h1 h2]
  exact tagIdx_map_fst _ src 0 [t]

/-- C4 (witness): a 12-character single sentence with `chunk_size = 10`
comes back as one unmodified chunk. -/
theorem C4_witness :
    (split_text 10 3 "doc" (S "Aaaaaaaaaaa.")).map Prod.fst = [S "Aaaaaaaaaaa."] :=
  C4_oversized_atom 10 3 "doc" (S "Aaaaaaaaaaa.") (by decide) (by decide) (by decide)

/-- C5 (code evaluated at the failing input): the circular path splits
"\n1. circular ref point" into an empty first chunk and one non-empty
chunk, violating the no-empty-chunk guarantee for non-empty input. -/
theorem C5_empty_chunk_eval :
    (split_text 1000 200 "src" (S "\n1. circular ref point")).map Prod.fst =
      [[], S "circular ref point"] := by decide

/-- C6 (counterexample): with `chunk_size = 10`, `chunk_overlap = 5` on
"A  B. Next sentence here." the second chunk's overlap seed is "A B."
(words rejoined with single spaces), which is not a verbatim suffix of
the first chunk "A  B."; indeed no non-empty prefix of the second chunk
of length at most the overlap is a suffix of the first chunk. -/
theorem C6_counterexample :
    split_by_size 10 5 (S "A  B. Next sentence here.") =
      [S "A  B.", S "A B.Next sentence here."] ∧
    ¬ ∃ L ∈ List.range 6, 0 < L ∧
        endsWithB ((S "A B.Next sentence here.").take L) (S "A  B.") = true := by decide

/-- C6 (amended): the overlap text is bounded by `chunk_overlap` and,
whenever the overlap branch is taken (`chunk_overlap < len(text)`), it
consists of whole trailing words of the previous chunk joined by single
spaces — truncated only at word boundaries, though not in general a
verbatim character suffix —; and the first chunk of a document has no
leading overlap: it begins with the document's first sentence. -/
theorem C6_overlap_props (ov : Nat) (t : Str) :
    (get_overlap_text ov t).length ≤ ov ∧
    (ov < t.length → ∃ k, get_overlap_text ov t = joinWords ((pywords t).drop k)) ∧
    (∀ cs : Nat, cs < t.length → ∀ x r, split_sentences t = x :: r →
      ∃ y, (split_by_size cs ov t).head? = some (strip (x ++ y))) :=
  ⟨get_overlap_text_length_le ov t, fun h => get_overlap_text_words ov t h,
   fun c h => split_by_size_first c ov t h⟩

/-- C6 (witness): the overlap properties at a concrete chunk text and a
concrete document. -/
theorem C6_witness :
    (get_overlap_text 5 (S "A  B. ")).length ≤ 5 ∧
    (∃ k, get_overlap_text 5 (S "A  B. ") = joinWords ((pywords (S "A  B. ")).drop k)) ∧
    ∃ y, (split_by_size 3 5 (S "A  B. ")).head? = some (strip (S "A  B." ++ y)) :=
  ⟨(C6_overlap_props 5 (S "A  B. ")).1, (C6_overlap_props 5 (S "A  B. ")).2.1 (by decide),
   (C6_overlap_props 5 (S "A  B. ")).2.2 3 (by decide) (S "A  B.") [[]] (by decide)⟩

/-- C7: the Document-Type Classifier is a pure function of the
case-folded first 2000 characters, first match wins, in the claimed
order; the code's "regulation" and "act" detections both route to the
structural strategy, matching the specification's classifier rule for
rule 1 and rule 4. -/
theorem C7_classifier_refines_spec :
    ∀ t : Str, routeOf (detect_document_type t) = spec_classify t := by
  intro t
  unfold detect_document_type spec_classify
  dsimp only
  split_ifs <;> rfl

/-- C8: chunk indices are exactly the contiguous range `1..N` in output
order and every chunk's `total_chunks` equals `N`. -/
theorem C8_index_contiguity (cs ov : Nat) (src : String) (t : Str) :
    ((split_text cs ov src t).map fun p => p.2.chunk_index) =
      List.range' 1 (split_text cs ov src t).length ∧
    ∀ p ∈ split_text cs ov src t, p.2.total_chunks = (split_text cs ov src t).length := by
  unfold split_text
  split
  · exact ⟨rfl, by intro p hp; exact absurd hp (List.not_mem_nil p)⟩
  · dsimp only
    constructor
    · rw [tagIdx_map_index, tagIdx_length]
    · intro p hp
      rw [tagIdx_length]
      exact tagIdx_total _ src 0 _ p hp

/-- C8 (witness): index contiguity applied to a concrete one-chunk
document. -/
theorem C8_witness :
    ((S "Hi.", (⟨"doc", 1, 1, none, none⟩ : ChunkMetadata))).2.total_chunks =
      (split_text 1000 200 "doc" (S "Hi.")).length :=
  (C8_index_contiguity 1000 200 "doc" (S "Hi.")).2 _ (by decide)

/-- C9: when the Q/A pattern finds zero matches on a non-empty (after
trimming) input, the QA-Pair Splitter falls back to the Size-Bounded
Chunker over the whole text and returns a non-empty chunk sequence. -/
theorem C9_faq_fallback (cs ov : Nat) (t : Str)
    (hz : faqFind (t.length + 1) t = []) (hne : strip t ≠ []) :
    split_faq cs ov t = split_by_size cs ov t ∧ split_faq cs ov t ≠ [] := by
  have hte : t ≠ [] := fun he => hne (by rw [he]; rfl)
  refine ⟨split_faq_fallback hz, ?_⟩
  rw [split_faq_fallback hz]
  exact split_by_size_ne hte

/-- C9 (witness): the fallback applied at a marker-free input. -/
theorem C9_witness :
    split_faq 50 10 (S "No markers here") = split_by_size 50 10 (S "No markers here") ∧
    split_faq 50 10 (S "No markers here") ≠ [] :=
  C9_faq_fallback 50 10 (S "No markers here") (by decide) (by decide)

/-- C10: every chunk text returned by `split_text`, on every splitting
path, is stripped (no leading or trailing whitespace). -/
theorem C10_chunks_stripped (cs ov : Nat) (src : String) (t : Str) :
    ∀ p ∈ split_text cs ov src t, strip p.1 = p.1 :=
  split_text_stripped cs ov src t

/-- C10 (witness): the stripped-chunk invariant at a concrete chunk. -/
theorem C10_witness : strip (S "Hi there.") = S "Hi there." :=
  C10_chunks_stripped 1000 200 "doc" (S "Hi there.")
    (S "Hi there.", (⟨"doc", 1, 1, none, none⟩ : ChunkMetadata)) (by decide)

end RagFin
